import Mathlib

/-!
# Verification of the `ranking` library

A shallow embedding of `ranking.py` (version 0.1.2): five tie-resolution
strategies and the lazy `Ranking` engine that assigns ranks to a sequence of
scored values, together with theorems checking the natural-language
specification against this embedding.

Modelling choices:
* Ranks are rationals (`ℚ`): every strategy produces integer ranks except
  `FRACTIONAL`, whose average `(2*start+length-1)/length` is computed by the
  source with exact float division on the inputs exercised here; `ℚ` carries
  both uniformly.
* A strategy generator `(start, length)` is the finite list of the values it
  yields, in order.
* A score in the source is any Python value or `None`; scores are `Option S`.
  `key=None` (score is the value itself) is modelled by `key = id` at the
  instantiation `α = Option ℚ`, and the default Python 2 `cmp` — under which
  `None` orders below every number — is `defaultCmp`.
* `__iter__` is a generator; its run over a finite sequence is a function to
  `Except RankError (List (Option Rank × α))`: `Except.error .notSorted`
  models `raise ValueError('Not sorted by score')`, and an output pair
  `(none, v)` models `yield None, v` for an unranked value.
-/

set_option autoImplicit false

namespace RankingPy

/-- Ranks are numeric: integers for all strategies except the fractional
average; both are carried in `ℚ`. -/
abbrev Rank := ℚ

/-- `COMPETITION(start, length)`: yields `start` for each of the `length`
tied items, then `start + length` ("1224" ranking). -/
def COMPETITION (start : Rank) (length : ℕ) : List Rank :=
  List.replicate length start ++ [start + (length : Rank)]

/-- `MODIFIED_COMPETITION(start, length)`: yields `start + length - 1` for
each tied item, then `start + length` ("1334" ranking). -/
def MODIFIED_COMPETITION (start : Rank) (length : ℕ) : List Rank :=
  List.replicate length (start + (length : Rank) - 1) ++ [start + (length : Rank)]

/-- `DENSE(start, length)`: yields `start` for each tied item, then
`start + 1` ("1223" ranking). -/
def DENSE (start : Rank) (length : ℕ) : List Rank :=
  List.replicate length start ++ [start + 1]

/-- `ORDINAL(start, length)`: `xrange(start, start + length + 1)`, the
consecutive integers from `start` to `start + length` ("1234" ranking). -/
def ORDINAL (start : Rank) (length : ℕ) : List Rank :=
  (List.range (length + 1)).map fun (i : ℕ) => start + (i : Rank)

/-- `FRACTIONAL(start, length)`: yields the average
`(2*start + length - 1) / length` for each tied item, then `start + length`
("1 2.5 2.5 4" ranking). -/
def FRACTIONAL (start : Rank) (length : ℕ) : List Rank :=
  List.replicate length ((2 * start + (length : Rank) - 1) / (length : Rank)) ++
    [start + (length : Rank)]

/-- The one error the engine raises while iterating: `.notSorted` models
`ValueError('Not sorted by score')`.  `.badStrategy` marks the state —
unreachable for any strategy honouring the `length + 1` yield contract —
in which a flush finds buffered ties but no recorded tie-start rank, where
the source would pass `None` as `start` into the strategy. -/
inductive RankError
  | notSorted
  | badStrategy
  deriving DecidableEq, Repr

/-- The configuration held by a `Ranking` instance: the sorted sequence, the
strategy, the first rank, the comparator over scores (which in the source
receives raw scores, `None` included) and the score extractor
(`key : α → Option S`; the source's `key=None` default is `id` at
`α = Option S`). -/
structure Ranking (α S : Type) where
  sequence : List α
  strategy : Rank → ℕ → List Rank
  start : Rank
  cmp : Option S → Option S → Int
  key : α → Option S

/-- The body of `Ranking.__iter__` after the first element has been read:
`left` is the current left value with its memoised score `leftScore`; the
remaining argument list is `itertools.chain(iterator, [final])` with the
sentinel represented by the empty list; `rank`, `drawn` and `tieStarted` are
the loop state.  A tie-group flush runs
`for rank in strategy(tie_started, len(drawn))`, pairing each yielded rank
with `drawn.pop(0)` until the buffer is exhausted (the extra trailing yields
hit the swallowed `IndexError`, pairing nothing but still reassigning
`rank`): the pairs are `rs.zip drawn'`, the leftover buffer is
`drawn'.drop rs.length` and the new rank counter is the last yielded value
(`rs.getLast?.getD rank`). -/
def iterAux {α S : Type} (strategy : Rank → ℕ → List Rank)
    (cmp : Option S → Option S → Int) (key : α → Option S)
    (left : α) (leftScore : Option S)
    (rank : Rank) (drawn : List α) (tieStarted : Option Rank) :
    List α → Except RankError (List (Option Rank × α))
  | [] =>
    -- `value is final`: the sentinel forces `compared = 1`, flushing state.
    match leftScore with
    | none => .ok [(none, left)]
    | some _ =>
      if drawn.isEmpty then
        .ok [(some rank, left)]
      else
        match tieStarted with
        | none => .error .badStrategy
        | some t =>
          let drawn' := drawn ++ [left]
          let rs := strategy t drawn'.length
          .ok ((rs.zip drawn').map fun p => (some p.1, p.2))
  | value :: rest =>
    let rightScore := key value
    match leftScore with
    | none =>
      -- `yield None, left; continue`: rank, drawn, tieStarted untouched.
      (iterAux strategy cmp key value rightScore rank drawn tieStarted rest).map
        fun out => (none, left) :: out
    | some ls =>
      let compared := cmp (some ls) rightScore
      if compared < 0 then
        .error .notSorted
      else if compared = 0 then
        iterAux strategy cmp key value rightScore rank (drawn ++ [left])
          (some (tieStarted.getD rank)) rest
      else if drawn.isEmpty then
        (iterAux strategy cmp key value rightScore (rank + 1) drawn tieStarted
            rest).map
          fun out => (some rank, left) :: out
      else
        match tieStarted with
        | none => .error .badStrategy
        | some t =>
          let drawn' := drawn ++ [left]
          let rs := strategy t drawn'.length
          (iterAux strategy cmp key value rightScore (rs.getLast?.getD rank)
              (drawn'.drop rs.length) none rest).map
            fun out => ((rs.zip drawn').map fun p => (some p.1, p.2)) ++ out

/-- One full run of `Ranking.__iter__`.  On the empty sequence the initial
`iterator.next()` raises `StopIteration`, which under Python 2 generator
semantics simply ends the generator: the output is empty. -/
def Ranking.iterate {α S : Type} (r : Ranking α S) :
    Except RankError (List (Option Rank × α)) :=
  match r.sequence with
  | [] => .ok []
  | x :: xs => iterAux r.strategy r.cmp r.key x (r.key x) r.start [] none xs

/-- The default Python 2 comparator restricted to the scores used here:
`cmp` returns the sign of the comparison, and `None` orders below every
number. -/
def defaultCmp (a b : Option ℚ) : Int :=
  match a, b with
  | none, none => 0
  | none, some _ => -1
  | some _, none => 1
  | some x, some y => if x < y then -1 else if y < x then 1 else 0

instance {ε β : Type} [DecidableEq ε] [DecidableEq β] : DecidableEq (Except ε β) :=
  fun x y =>
    match x, y with
    | .ok a, .ok b =>
      if h : a = b then .isTrue (by rw [h]) else .isFalse (by simp [h])
    | .error a, .error b =>
      if h : a = b then .isTrue (by rw [h]) else .isFalse (by simp [h])
    | .ok _, .error _ => .isFalse (by simp)
    | .error _, .ok _ => .isFalse (by simp)

/-- A `Ranking` over plain scores with the source's defaults filled in:
`cmp` is the Python 2 default comparator and `key=None`, i.e. the score of a
value is the value itself. -/
def rankingOf (strategy : Rank → ℕ → List Rank) (start : Rank)
    (seq : List (Option ℚ)) : Ranking (Option ℚ) ℚ :=
  ⟨seq, strategy, start, defaultCmp, id⟩

/-- A caller-supplied comparator that orders `None` above every number —
a legal total order on scores, used to probe whether `None` scores really
stay out of every comparison. -/
def noneHighCmp (a b : Option ℚ) : Int :=
  match a, b with
  | none, none => 0
  | none, some _ => 1
  | some _, none => -1
  | some x, some y => if x < y then -1 else if y < x then 1 else 0

/-- Modelled from the spec: the output predicted for a strictly decreasing,
fully scored sequence — the consecutive ranks `start, start+1, start+2, …`,
one per value in input order.  Compared against `Ranking.iterate`. -/
def specConsecutive {α : Type} (start : Rank) : List α → List (Option Rank × α)
  | [] => []
  | v :: vs => (some start, v) :: specConsecutive (start + 1) vs

/-- `hasBadFrom cmp key a rest` holds when, walking the adjacent pairs of
`a :: rest`, some left element has a non-`None` score that the comparator
puts strictly below the score of the element following it. -/
def hasBadFrom {α S : Type} (cmp : Option S → Option S → Int)
    (key : α → Option S) : α → List α → Bool
  | _, [] => false
  | a, b :: rest =>
    ((key a).isSome && decide (cmp (key a) (key b) < 0)) ||
      hasBadFrom cmp key b rest

/-- Some adjacent pair of the sequence has a non-`None` left score that the
comparator puts strictly below the right score. -/
def hasBadPair {α S : Type} (cmp : Option S → Option S → Int)
    (key : α → Option S) : List α → Bool
  | [] => false
  | a :: rest => hasBadFrom cmp key a rest

/-- The spec's contract on strategies: `(start, length)` must yield exactly
`length + 1` values. -/
def StrategyContract (s : Rank → ℕ → List Rank) : Prop :=
  ∀ t k, (s t k).length = k + 1

/-- C1: for the input sequence `[10, 8, 8, 6]` with start rank 0, iterating
`Ranking` produces exactly the spec's pair list for each of the five
strategies: COMPETITION `[(0,10),(1,8),(1,8),(3,6)]`, DENSE
`[(0,10),(1,8),(1,8),(2,6)]`, FRACTIONAL `[(0,10),(1.5,8),(1.5,8),(3,6)]`,
ORDINAL `[(0,10),(1,8),(2,8),(3,6)]` and MODIFIED_COMPETITION
`[(0,10),(2,8),(2,8),(3,6)]`. -/
theorem c1_four_scores_all_strategies :
    (rankingOf COMPETITION 0 [some 10, some 8, some 8, some 6]).iterate =
      .ok [(some 0, some 10), (some 1, some 8), (some 1, some 8),
        (some 3, some 6)] ∧
    (rankingOf DENSE 0 [some 10, some 8, some 8, some 6]).iterate =
      .ok [(some 0, some 10), (some 1, some 8), (some 1, some 8),
        (some 2, some 6)] ∧
    (rankingOf FRACTIONAL 0 [some 10, some 8, some 8, some 6]).iterate =
      .ok [(some 0, some 10), (some (3 / 2), some 8), (some (3 / 2), some 8),
        (some 3, some 6)] ∧
    (rankingOf ORDINAL 0 [some 10, some 8, some 8, some 6]).iterate =
      .ok [(some 0, some 10), (some 1, some 8), (some 2, some 8),
        (some 3, some 6)] ∧
    (rankingOf MODIFIED_COMPETITION 0 [some 10, some 8, some 8, some 6]).iterate =
      .ok [(some 0, some 10), (some 2, some 8), (some 2, some 8),
        (some 3, some 6)] := by
  refine ⟨?_, ?_, ?_, ?_, ?_⟩ <;>
    norm_num [Ranking.iterate, iterAux, rankingOf, defaultCmp, COMPETITION,
      DENSE, FRACTIONAL, ORDINAL, MODIFIED_COMPETITION, Except.map,
      List.replicate, List.range_succ]

/-- C2: for every start rank and every count `length ≥ 1`, each strategy
yields exactly `length + 1` values, the first `length` being the ranks of
the tied items and the last the rank of the next distinct item:
COMPETITION gives `start` then `start+length`; MODIFIED_COMPETITION gives
`start+length-1` then `start+length`; DENSE gives `start` then `start+1`;
ORDINAL gives the consecutive values `start, …, start+length`; FRACTIONAL
gives the average `(2*start+length-1)/length` then `start+length`. -/
theorem c2_strategy_yields (start : Rank) (length : ℕ) (h : 1 ≤ length) :
    ((COMPETITION start length).length = length + 1 ∧
      (∀ i, i < length → (COMPETITION start length).getD i 0 = start) ∧
      (COMPETITION start length).getD length 0 = start + length) ∧
    ((MODIFIED_COMPETITION start length).length = length + 1 ∧
      (∀ i, i < length →
        (MODIFIED_COMPETITION start length).getD i 0 = start + length - 1) ∧
      (MODIFIED_COMPETITION start length).getD length 0 = start + length) ∧
    ((DENSE start length).length = length + 1 ∧
      (∀ i, i < length → (DENSE start length).getD i 0 = start) ∧
      (DENSE start length).getD length 0 = start + 1) ∧
    ((ORDINAL start length).length = length + 1 ∧
      (∀ i, i ≤ length → (ORDINAL start length).getD i 0 = start + i)) ∧
    ((FRACTIONAL start length).length = length + 1 ∧
      (∀ i, i < length →
        (FRACTIONAL start length).getD i 0 =
          (2 * start + length - 1) / length) ∧
      (FRACTIONAL start length).getD length 0 = start + length) := by
  refine ⟨⟨?_, fun i hi => ?_, ?_⟩, ⟨?_, fun i hi => ?_, ?_⟩,
    ⟨?_, fun i hi => ?_, ?_⟩, ⟨?_, fun i hi => ?_⟩, ⟨?_, fun i hi => ?_, ?_⟩⟩
  · simp [COMPETITION]
  · simp [COMPETITION, List.getD, List.getElem?_append, List.getElem?_replicate, hi]
  · have : length = (List.replicate length start).length := by simp
    simp [COMPETITION, List.getD, List.getElem?_append_right (le_of_eq this.symm)]
  · simp [ MODIFIED_COMPETITION]
  · simp [ MODIFIED_COMPETITION, List.getD, List.getElem?_append,
      List.getElem?_replicate, hi]
  · have : length = (List.replicate length (start + (length : Rank) - 1)).length := by
      simp
    simp [ MODIFIED_COMPETITION, List.getD,
      List.getElem?_append_right (le_of_eq this.symm)]
  · simp [DENSE]
  · simp [DENSE, List.getD, List.getElem?_append, List.getElem?_replicate, hi]
  · have : length = (List.replicate length start).length := by simp
    simp [DENSE, List.getD, List.getElem?_append_right (le_of_eq this.symm)]
  · simp only [ORDINAL, List.length_map, List.length_range]
  · simp only [ORDINAL, List.getD, List.get?_eq_getElem?, List.getElem?_map,
      List.getElem?_range (Nat.lt_succ_of_le hi), Option.map_some', Option.getD_some]
  · simp [FRACTIONAL]
  · simp [FRACTIONAL, List.getD, List.getElem?_append, List.getElem?_replicate, hi]
  · have : length =
        (List.replicate length ((2 * start + (length : Rank) - 1) /
          (length : Rank))).length := by
      simp
    simp [FRACTIONAL, List.getD, List.getElem?_append_right (le_of_eq this.symm)]

/-- Closed instance of `c2_strategy_yields` at a concrete input. -/
theorem c2_strategy_yields_witness :
    (COMPETITION 1 2).length = 2 + 1 ∧ (FRACTIONAL 1 2).getD 0 0 = 3 / 2 := by
  refine ⟨(c2_strategy_yields 1 2 (by norm_num)).1.1, ?_⟩
  have h := ((c2_strategy_yields 1 2 (by norm_num)).2.2.2.2).2.1 0 (by norm_num)
  rw [h]
  norm_num

/-- `Except.map` preserves and reflects errors. -/
theorem exceptMap_error_iff {ε β γ : Type} (f : β → γ) (x : Except ε β)
    (e : ε) : x.map f = .error e ↔ x = .error e := by
  cases x <;> simp [Except.map]

/-- Invariant run of the engine body: provided the strategy honours the
`length + 1` yield contract and a non-empty tie buffer always comes with a
recorded tie-start rank, the only error the iteration can produce is
`.notSorted`, and it produces it exactly when some adjacent pair has a
non-`None` left score that the comparator puts strictly below the right
score. -/
theorem c3_aux {α S : Type} (strategy : Rank → ℕ → List Rank)
    (cmp : Option S → Option S → Int) (key : α → Option S)
    (hs : StrategyContract strategy) :
    ∀ (rest : List α) (left : α) (rank : Rank) (drawn : List α)
      (tie : Option Rank), (drawn = [] ∨ tie ≠ none) →
      (∀ e, iterAux strategy cmp key left (key left) rank drawn tie rest =
          .error e → e = .notSorted) ∧
      (iterAux strategy cmp key left (key left) rank drawn tie rest =
          .error .notSorted ↔ hasBadFrom cmp key left rest = true) := by
  intro rest
  induction rest with
  | nil =>
    intro left rank drawn tie hinv
    have hok : ∀ e, iterAux strategy cmp key left (key left) rank drawn tie []
        ≠ .error e := by
      intro e
      cases hkv : key left with
      | none => simp [iterAux]
      | some s =>
        cases drawn with
        | nil => simp [iterAux]
        | cons d ds =>
          have htie : tie ≠ none := hinv.resolve_left (by simp)
          obtain ⟨t, rfl⟩ := Option.ne_none_iff_exists'.mp htie
          simp [iterAux]
    refine ⟨fun e he => absurd he (hok e), ?_⟩
    simp [hasBadFrom]
    exact hok .notSorted
  | cons value rest ih =>
    intro left rank drawn tie hinv
    cases hkv : key left with
    | none =>
      have hrec := ih value rank drawn tie hinv
      have hstep : iterAux strategy cmp key left none rank drawn tie
          (value :: rest) =
          (iterAux strategy cmp key value (key value) rank drawn tie
            rest).map (fun out => (none, left) :: out) := by
        simp [iterAux]
      refine ⟨fun e he =>
        hrec.1 e ((exceptMap_error_iff _ _ _).mp (hstep.symm.trans he)), ?_⟩
      rw [hstep, exceptMap_error_iff, hrec.2]
      simp [hasBadFrom, hkv]
    | some s =>
      by_cases hc1 : cmp (some s) (key value) < 0
      · have hstep : iterAux strategy cmp key left (some s) rank drawn tie
            (value :: rest) = .error .notSorted := by
          simp [iterAux, hc1]
        refine ⟨fun e he => ?_, ?_⟩
        · have h3 := (hstep.symm.trans he).symm
          simpa using h3
        · rw [hstep]
          simp [hasBadFrom, hkv, hc1]
      · by_cases hc2 : cmp (some s) (key value) = 0
        · have hrec := ih value rank (drawn ++ [left])
            (some (tie.getD rank)) (Or.inr (by simp))
          have hstep : iterAux strategy cmp key left (some s) rank drawn tie
              (value :: rest) =
              iterAux strategy cmp key value (key value) rank
                (drawn ++ [left]) (some (tie.getD rank)) rest := by
            simp [iterAux, hc1, hc2]
          refine ⟨fun e he => hrec.1 e (hstep.symm.trans he), ?_⟩
          rw [hstep, hrec.2]
          simp [hasBadFrom, hkv, hc1, hc2]
        · cases drawn with
          | nil =>
            have hrec := ih value (rank + 1) [] tie (Or.inl rfl)
            have hstep : iterAux strategy cmp key left (some s) rank [] tie
                (value :: rest) =
                (iterAux strategy cmp key value (key value) (rank + 1) [] tie
                  rest).map (fun out => (some rank, left) :: out) := by
              simp [iterAux, hc1, hc2]
            refine ⟨fun e he =>
              hrec.1 e ((exceptMap_error_iff _ _ _).mp
                (hstep.symm.trans he)), ?_⟩
            rw [hstep, exceptMap_error_iff, hrec.2]
            simp [hasBadFrom, hkv, hc1, hc2]
          | cons d ds =>
            have htie : tie ≠ none := hinv.resolve_left (by simp)
            obtain ⟨t, rfl⟩ := Option.ne_none_iff_exists'.mp htie
            have hdrop : ((d :: ds) ++ [left]).drop
                (strategy t ((d :: ds) ++ [left]).length).length = [] := by
              rw [hs t (((d :: ds) ++ [left]).length)]
              exact List.drop_eq_nil_of_le (by simp)
            have hrec := ih value
              ((strategy t ((d :: ds) ++ [left]).length).getLast?.getD rank)
              [] none (Or.inl rfl)
            have hstep : iterAux strategy cmp key left (some s) rank
                (d :: ds) (some t) (value :: rest) =
                (iterAux strategy cmp key value (key value)
                  ((strategy t ((d :: ds) ++ [left]).length).getLast?.getD
                    rank) [] none rest).map
                  (fun out =>
                    ((strategy t ((d :: ds) ++ [left]).length).zip
                      ((d :: ds) ++ [left])).map
                        (fun p => (some p.1, p.2)) ++ out) := by
              rw [show iterAux strategy cmp key left (some s) rank
                  (d :: ds) (some t) (value :: rest) =
                  (iterAux strategy cmp key value (key value)
                    ((strategy t ((d :: ds) ++ [left]).length).getLast?.getD
                      rank)
                    (((d :: ds) ++ [left]).drop
                      (strategy t ((d :: ds) ++ [left]).length).length)
                    none rest).map
                    (fun out =>
                      ((strategy t ((d :: ds) ++ [left]).length).zip
                        ((d :: ds) ++ [left])).map
                          (fun p => (some p.1, p.2)) ++ out) by
                simp [iterAux, hc1, hc2]]
              rw [hdrop]
            refine ⟨fun e he =>
              hrec.1 e ((exceptMap_error_iff _ _ _).mp
                (hstep.symm.trans he)), ?_⟩
            rw [hstep, exceptMap_error_iff, hrec.2]
            simp [hasBadFrom, hkv, hc1, hc2]

/-- C3: iterating raises the ordering-violation error — and no other
error — exactly when some adjacent pair of the sequence has a non-`None`
left score that the comparator puts strictly below the following score
(construction itself is a total structure literal in this embedding and
cannot raise; the error surfaces only through `iterate`).  The strategy is
assumed to honour the spec's `length + 1` yield contract, which all five
shipped strategies do. -/
theorem c3_ordering_violation {α S : Type} (r : Ranking α S)
    (hs : StrategyContract r.strategy) :
    (r.iterate = .error .notSorted ↔
      hasBadPair r.cmp r.key r.sequence = true) ∧
    ∀ e, r.iterate = .error e → e = .notSorted := by
  obtain ⟨seq, strategy, start, cmp, key⟩ := r
  cases seq with
  | nil =>
    constructor
    · simp [Ranking.iterate, hasBadPair]
    · intro e he
      simp [Ranking.iterate] at he
  | cons v vs =>
    have h := c3_aux strategy cmp key hs vs v start [] none (Or.inl rfl)
    exact ⟨h.2, h.1⟩

/-- Closed instance of `c3_ordering_violation`: the spec's unsorted example
`[5, 10]` raises the ordering violation under the default configuration. -/
theorem c3_ordering_violation_witness :
    (rankingOf COMPETITION 0 [some 5, some 10]).iterate =
      .error .notSorted :=
  (c3_ordering_violation (rankingOf COMPETITION 0 [some 5, some 10])
      (fun t k => by simp [rankingOf, COMPETITION])).1.mpr
    (by norm_num [rankingOf, hasBadPair, hasBadFrom, defaultCmp])

/-- C4 as stated is false: a `None` score IS passed to the comparator, as
the right operand, whenever the preceding item's score is non-`None` —
`compared = self.cmp(left_score, right_score)` runs before the engine looks
at the next item's score.  Under a comparator that orders `None` above
every number, the two-item sequence with scores `[10, None]` therefore
raises the ordering-violation error, contradicting both "is never passed
to the comparator (… as either operand)" and "never triggers the
ordering-violation error" quantified over every comparator. -/
theorem c4_counterexample :
    (Ranking.mk [some (10 : ℚ), none] COMPETITION 0 noneHighCmp id).iterate =
      .error .notSorted := by
  norm_num [Ranking.iterate, iterAux, noneHighCmp]

/-- C4 (amended): an item whose score is `None` is emitted as
`(None, value)` at its position and iteration continues with the rank
counter, tie buffer and tie-start state unchanged; its score is never the
left operand of a comparison.  It can appear as the right operand; under
the default comparator such a comparison returns `1`, so with the default
comparator a `None` score never triggers the ordering error, and scores
`[10, None, 8]` give `(0,10),(None,·),(1,8)`. -/
theorem c4_none_passthrough {α S : Type} (strategy : Rank → ℕ → List Rank)
    (cmp : Option S → Option S → Int) (key : α → Option S) (v : α)
    (hv : key v = none) (rank : Rank) (drawn : List α) (tie : Option Rank)
    (rest : List α) :
    (iterAux strategy cmp key v (key v) rank drawn tie rest =
      match rest with
      | [] => .ok [(none, v)]
      | w :: ws =>
        (iterAux strategy cmp key w (key w) rank drawn tie ws).map
          fun out => (none, v) :: out) ∧
    (∀ x : ℚ, defaultCmp (some x) none = 1) ∧
    (rankingOf COMPETITION 0 [some 10, none, some 8]).iterate =
      .ok [(some 0, some 10), (none, none), (some 1, some 8)] := by
  refine ⟨?_, fun x => rfl, ?_⟩
  · cases rest with
    | nil => simp [iterAux, hv]
    | cons w ws => simp [iterAux, hv]
  · norm_num [Ranking.iterate, iterAux, rankingOf, defaultCmp, Except.map]

/-- Closed instance of `c4_none_passthrough` at a concrete input. -/
theorem c4_none_passthrough_witness :
    iterAux COMPETITION defaultCmp id (none : Option ℚ) (id (none : Option ℚ))
        0 [] none [] = .ok [(none, none)] :=
  (c4_none_passthrough COMPETITION defaultCmp id none rfl 0 [] none []).1

/-- Streaming a fully scored, strictly decreasing run with an empty tie
buffer emits consecutive ranks: the engine takes the no-tie singleton branch
at every step. -/
theorem c5_aux {α S : Type} (strategy : Rank → ℕ → List Rank)
    (cmp : Option S → Option S → Int) (key : α → Option S) :
    ∀ (rest : List α) (v : α) (rank : Rank), key v ≠ none →
      (∀ w ∈ rest, key w ≠ none) →
      List.Chain' (fun a b => 0 < cmp (key a) (key b)) (v :: rest) →
      iterAux strategy cmp key v (key v) rank [] none rest =
        .ok (specConsecutive rank (v :: rest)) := by
  intro rest
  induction rest with
  | nil =>
    intro v rank hv _ _
    obtain ⟨s, hs⟩ := Option.ne_none_iff_exists'.mp hv
    simp [iterAux, hs, specConsecutive]
  | cons w ws ih =>
    intro v rank hv hrest hchain
    obtain ⟨s, hs⟩ := Option.ne_none_iff_exists'.mp hv
    have hcmp : 0 < cmp (key v) (key w) := (List.chain'_cons.mp hchain).1
    have h1 : ¬ cmp (some s) (key w) < 0 := by rw [← hs]; omega
    have h2 : ¬ cmp (some s) (key w) = 0 := by rw [← hs]; omega
    have hIH := ih w (rank + 1) (hrest w (by simp))
      (fun u hu => hrest u (by simp [hu])) (List.chain'_cons.mp hchain).2
    simp [iterAux, hs, h1, h2, hIH, specConsecutive, Except.map]

/-- C5: on a finite sequence whose scores are all non-`None` and strictly
decreasing under the comparator, the emitted ranks are exactly
`start, start+1, start+2, …` in input order, for every strategy — the
output does not depend on the strategy at all. -/
theorem c5_no_ties_consecutive {α S : Type} (strategy : Rank → ℕ → List Rank)
    (start : Rank) (cmp : Option S → Option S → Int) (key : α → Option S)
    (seq : List α)
    (hchain : List.Chain' (fun a b => 0 < cmp (key a) (key b)) seq)
    (hsome : ∀ v ∈ seq, key v ≠ none) :
    (Ranking.mk seq strategy start cmp key).iterate =
      .ok (specConsecutive start seq) := by
  cases seq with
  | nil => rfl
  | cons v vs =>
    exact c5_aux strategy cmp key vs v start (hsome v (by simp))
      (fun w hw => hsome w (by simp [hw])) hchain

/-- Closed instance of `c5_no_ties_consecutive` at a concrete input. -/
theorem c5_no_ties_consecutive_witness :
    (Ranking.mk [some (9 : ℚ), some 4] COMPETITION 7 defaultCmp id).iterate =
      .ok (specConsecutive 7 [some (9 : ℚ), some 4]) :=
  c5_no_ties_consecutive COMPETITION 7 defaultCmp id [some 9, some 4]
    (by norm_num [List.chain'_cons, defaultCmp]) (by simp)

/-- C6: a single-element sequence whose element has a non-`None` score
yields exactly `(start, value)`, for every strategy, start rank, comparator
and key. -/
theorem c6_singleton {α S : Type} (strategy : Rank → ℕ → List Rank)
    (start : Rank) (cmp : Option S → Option S → Int) (key : α → Option S)
    (v : α) (h : key v ≠ none) :
    (Ranking.mk [v] strategy start cmp key).iterate = .ok [(some start, v)] := by
  obtain ⟨s, hs⟩ := Option.ne_none_iff_exists'.mp h
  simp [Ranking.iterate, iterAux, hs]

/-- Closed instance of `c6_singleton` at a concrete input. -/
theorem c6_singleton_witness :
    (Ranking.mk [some 7] COMPETITION 5 defaultCmp id).iterate =
      .ok [(some 5, some 7)] :=
  c6_singleton COMPETITION 5 defaultCmp id (some 7) (by simp)

/-- C7: the empty input sequence yields the empty output and raises no
error, for every strategy, start rank, comparator and key. -/
theorem c7_empty {α S : Type} (strategy : Rank → ℕ → List Rank)
    (start : Rank) (cmp : Option S → Option S → Int) (key : α → Option S) :
    (Ranking.mk ([] : List α) strategy start cmp key).iterate = .ok [] :=
  rfl

/-- C8: iteration is deterministic and restartable — any two complete
iterations of the same `Ranking` instance produce identical results.  The
embedding makes `Ranking.iterate` a pure function of the configuration,
faithfully reflecting that `__iter__` initialises its entire loop state
(`rank`, `drawn`, `tie_started`) afresh from the configuration on every
call and holds no consumed state across separate iteration starts. -/
theorem c8_deterministic {α S : Type} (r : Ranking α S)
    (out₁ out₂ : Except RankError (List (Option Rank × α)))
    (h₁ : r.iterate = out₁) (h₂ : r.iterate = out₂) : out₁ = out₂ :=
  h₁.symm.trans h₂

/-- Closed instance of `c8_deterministic` at a concrete input. -/
theorem c8_deterministic_witness :
    ((rankingOf COMPETITION 0 [some 10, some 8]).iterate =
        (rankingOf COMPETITION 0 [some 10, some 8]).iterate) :=
  c8_deterministic (rankingOf COMPETITION 0 [some 10, some 8]) _ _ rfl rfl

/-- C10: two equal scores separated by a `None`-scored item are not grouped
as a tie, because tie detection only compares adjacent elements: scores
`[8, None, 8]` under the default configuration give
`(0, first), (None, middle), (1, last)`. -/
theorem c10_tie_broken_by_none :
    (rankingOf COMPETITION 0 [some 8, none, some 8]).iterate =
      .ok [(some 0, some 8), (none, none), (some 1, some 8)] := by
  norm_num [Ranking.iterate, iterAux, rankingOf, defaultCmp, Except.map]

/-- `zip` only consumes the first `l₂.length` elements of its left list. -/
theorem zip_eq_take_zip {β γ : Type} :
    ∀ (l₁ : List β) (l₂ : List γ), l₁.zip l₂ = (l₁.take l₂.length).zip l₂ := by
  intro l₁
  induction l₁ with
  | nil => intro l₂; simp
  | cons x xs ih =>
    intro l₂
    cases l₂ with
    | nil => simp
    | cons y ys => simp [List.zip_cons_cons, ih ys]

/-- Running the engine over `j` further copies of an already-tied score just
appends those copies to the tie buffer, leaving rank and tie-start alone. -/
theorem c9_tie_accum (strategy : Rank → ℕ → List Rank) (a : ℚ) :
    ∀ (j : ℕ) (tail : List (Option ℚ)) (rank t : Rank)
      (drawn : List (Option ℚ)),
      iterAux strategy defaultCmp id (some a) (some a) rank drawn (some t)
        (List.replicate j (some a) ++ tail) =
      iterAux strategy defaultCmp id (some a) (some a) rank
        (drawn ++ List.replicate j (some a)) (some t) tail := by
  intro j
  induction j with
  | zero => intro tail rank t drawn; simp
  | succ j ih =>
    intro tail rank t drawn
    rw [List.replicate_succ, List.cons_append]
    have hstep : iterAux strategy defaultCmp id (some a) (some a) rank drawn
        (some t) ((some a) :: (List.replicate j (some a) ++ tail)) =
        iterAux strategy defaultCmp id (some a) (some a) rank
          (drawn ++ [some a]) (some t)
          (List.replicate j (some a) ++ tail) := by
      simp [iterAux, defaultCmp]
    rw [hstep, ih]
    simp [List.replicate_succ]

/-- C9: when a tie group of size `k ≥ 2` is flushed — by a following
strictly smaller score or by the end-of-input sentinel — the engine emits
exactly `k` pairs, zipping the strategy's first `k` yielded ranks with the
buffered tied items in input order; the strategy's `(k+1)`-th yield is
paired with no item but becomes the rank counter, so a distinct item
immediately following the tie group is emitted with exactly that value as
its rank.  This holds for any strategy honouring the `length + 1` yield
contract. -/
theorem c9_flush_mechanics (s : Rank → ℕ → List Rank)
    (hs : StrategyContract s) (k : ℕ) (hk : 2 ≤ k) (a b st : ℚ)
    (hab : b < a) :
    (Ranking.mk (List.replicate k (some a) ++ [some b]) s st defaultCmp
        id).iterate =
      .ok ((((s st k).take k).zip (List.replicate k (some a))).map
          (fun p => (some p.1, p.2)) ++ [(some ((s st k).getD k 0), some b)]) ∧
    (Ranking.mk (List.replicate k (some a)) s st defaultCmp id).iterate =
      .ok ((((s st k).take k).zip (List.replicate k (some a))).map
          (fun p => (some p.1, p.2))) := by
  obtain ⟨m, rfl⟩ : ∃ m, k = m + 2 := ⟨k - 2, by omega⟩
  have hlen : (s st (m + 2)).length = m + 3 := hs st (m + 2)
  have hm2 : m + 2 < (s st (m + 2)).length := by omega
  have hlast : (s st (m + 2)).getLast? = some ((s st (m + 2)).getD (m + 2) 0) := by
    rw [List.getLast?_eq_getElem?, hlen]
    have h32 : m + 3 - 1 = m + 2 := by omega
    rw [h32, List.getElem?_eq_getElem hm2, List.getD_eq_getElem _ 0 hm2]
  have hdrop : (List.replicate (m + 2) (some a : Option ℚ)).drop
      (s st (m + 2)).length = [] :=
    List.drop_eq_nil_of_le (by simp [hlen])
  have hstep1 : ∀ tail : List (Option ℚ),
      iterAux s defaultCmp id (some a) (some a) st [] none
        ((some a) :: tail) =
      iterAux s defaultCmp id (some a) (some a) st [some a] (some st)
        tail := by
    intro tail
    simp [iterAux, defaultCmp]
  have hone : [some a] ++ List.replicate m (some a) =
      List.replicate (m + 1) (some a : Option ℚ) := by
    simp [List.replicate_succ]
  have htwo : List.replicate (m + 1) (some a : Option ℚ) ++ [some a] =
      List.replicate (m + 2) (some a) := (List.replicate_succ' (m + 1) _).symm
  have hzip : (s st (m + 2)).zip (List.replicate (m + 2) (some a : Option ℚ)) =
      ((s st (m + 2)).take (m + 2)).zip (List.replicate (m + 2) (some a)) := by
    rw [zip_eq_take_zip]
    simp
  constructor
  · have hseq : List.replicate (m + 2) (some a : Option ℚ) ++ [some b] =
        (some a) :: ((some a) :: (List.replicate m (some a) ++ [some b])) := by
      simp [List.replicate_succ]
    rw [show (Ranking.mk (List.replicate (m + 2) (some a) ++ [some b]) s st
        defaultCmp id).iterate =
        (Ranking.mk ((some a) :: ((some a) ::
          (List.replicate m (some a) ++ [some b]))) s st defaultCmp
          id).iterate by rw [hseq]]
    show iterAux s defaultCmp id (some a) (some a) st [] none
        ((some a) :: (List.replicate m (some a) ++ [some b])) = _
    rw [hstep1, c9_tie_accum s a m [some b] st st [some a], hone]
    have hflush : iterAux s defaultCmp id (some a) (some a) st
        (List.replicate (m + 1) (some a)) (some st) [some b] =
        (iterAux s defaultCmp id (some b) (some b)
          ((s st ((List.replicate (m + 1) (some a : Option ℚ) ++
            [some a]).length)).getLast?.getD st)
          ((List.replicate (m + 1) (some a : Option ℚ) ++ [some a]).drop
            (s st ((List.replicate (m + 1) (some a : Option ℚ) ++
              [some a]).length)).length) none []).map
          (fun out =>
            ((s st ((List.replicate (m + 1) (some a : Option ℚ) ++
              [some a]).length)).zip
              (List.replicate (m + 1) (some a : Option ℚ) ++ [some a])).map
                (fun p => (some p.1, p.2)) ++ out) := by
      simp [iterAux, defaultCmp, lt_asymm hab, hab]
    rw [hflush, htwo]
    have hlm : (List.replicate (m + 2) (some a : Option ℚ)).length = m + 2 := by
      simp
    rw [hlm, hdrop, hlast]
    simp [iterAux, Except.map, hzip]
  · have hseq : List.replicate (m + 2) (some a : Option ℚ) =
        (some a) :: ((some a) :: (List.replicate m (some a) ++ [])) := by
      simp [List.replicate_succ]
    rw [show (Ranking.mk (List.replicate (m + 2) (some a)) s st defaultCmp
        id).iterate =
        (Ranking.mk ((some a) :: ((some a) ::
          (List.replicate m (some a) ++ []))) s st defaultCmp id).iterate by
      rw [hseq]]
    show iterAux s defaultCmp id (some a) (some a) st [] none
        ((some a) :: (List.replicate m (some a) ++ [])) = _
    rw [hstep1, c9_tie_accum s a m [] st st [some a], hone]
    have hfin : iterAux s defaultCmp id (some a) (some a) st
        (List.replicate (m + 1) (some a)) (some st) [] =
        .ok (((s st ((List.replicate (m + 1) (some a : Option ℚ) ++
            [some a]).length)).zip
          (List.replicate (m + 1) (some a : Option ℚ) ++ [some a])).map
            (fun p => (some p.1, p.2))) := by
      simp [iterAux]
    rw [hfin, htwo]
    have hlm : (List.replicate (m + 2) (some a : Option ℚ)).length = m + 2 := by
      simp
    rw [hlm, hzip]

/-- Closed instance of `c9_flush_mechanics` at a concrete input. -/
theorem c9_flush_mechanics_witness :
    (Ranking.mk (List.replicate 2 (some (8 : ℚ)) ++ [some 6]) COMPETITION 0
        defaultCmp id).iterate =
      .ok ((((COMPETITION 0 2).take 2).zip
          (List.replicate 2 (some (8 : ℚ)))).map (fun p => (some p.1, p.2)) ++
        [(some ((COMPETITION 0 2).getD 2 0), some 6)]) :=
  (c9_flush_mechanics COMPETITION
      (fun t j => by simp [COMPETITION]) 2 (by norm_num) 8 6 0
      (by norm_num)).1

end RankingPy
